import Mathlib

/-!
Verification of the gue job-queue specification.

The repository slice under inspection contains only the package
documentation (`doc.go`); the core implementation (job store, claim
protocol, worker loop, worker pool, backoff policy) is part of the
repository but absent from the inspected sources.  Every definition
below is therefore modelled from the specification text, as marked in
each doc comment.  Timestamps and durations are modelled in whole
seconds as natural numbers; the opaque `Args` byte payload is a list
of bytes (natural numbers); worker identities are natural numbers.
-/

/-- Modelled from the spec: the `Job` data model of section 3 — the unit
of work persisted in the job store.  `args` is an opaque byte payload,
`runAt` the eligibility timestamp, `errorCount` the number of failed
executions so far, `lastError` the last recorded failure message. -/
structure Job where
  id : Nat
  queue : String
  type : String
  args : List Nat
  runAt : Nat
  errorCount : Nat
  lastError : String
  createdAt : Nat
  deriving Repr, DecidableEq

/-- Modelled from the spec: the backing store, the single source of
truth.  `jobs` is the persisted job table; `locks` records which worker
currently holds an open claim transaction (a row lock) on which job id;
`nextId` is the id-assignment counter (ids are assigned at insert
time). -/
structure Store where
  jobs : List Job
  locks : List (Nat × Nat)
  nextId : Nat
  deriving Repr, DecidableEq

/-- The empty store: no jobs, no open claims. -/
def Store.init : Store := { jobs := [], locks := [], nextId := 0 }

/-- The job ids currently locked by some in-flight claim transaction. -/
def Store.lockedIds (s : Store) : List Nat := s.locks.map Prod.snd

/-- Look a job row up by id. -/
def findJob (s : Store) (i : Nat) : Option Job :=
  s.jobs.find? (fun j => j.id == i)

/-- Modelled from the spec: `Enqueue` (section 4.1) — inserts a Job row;
the id is assigned at insert time and `CreatedAt` is the insert
timestamp; `ErrorCount` starts at 0 and `LastError` is empty until the
first failure. -/
def enqueue (s : Store) (queue ty : String) (args : List Nat) (runAt now : Nat) : Store :=
  { s with
    jobs := { id := s.nextId, queue := queue, type := ty, args := args,
              runAt := runAt, errorCount := 0, lastError := "",
              createdAt := now } :: s.jobs
    nextId := s.nextId + 1 }

/-- A row is eligible for claiming when its `Queue` matches, its `RunAt`
has elapsed, and no in-flight transaction already holds its row lock
(the skip-locked read excludes locked rows instead of blocking). -/
def eligible (queue : String) (now : Nat) (lockedIds : List Nat) (j : Job) : Bool :=
  j.queue == queue && j.runAt ≤ now && !(lockedIds.contains j.id)

/-- The candidate with minimal `RunAt` (ascending `RunAt` order). -/
def minRunAt : List Job → Option Job
  | [] => none
  | j :: js =>
    match minRunAt js with
    | none => some j
    | some k => if j.runAt ≤ k.runAt then some j else some k

/-- Modelled from the spec: `ClaimNext(queue)` (section 4.1) — begins a
transaction and selects the single eligible row (queue matches,
`RunAt <= now`) in ascending `RunAt` order with a locking read that
skips rows locked by other in-flight transactions; on success the
returned job's row lock is recorded for the claiming worker (the
transaction stays open); returns none when no eligible unlocked row
exists. -/
def claimNext (s : Store) (w : Nat) (queue : String) (now : Nat) : Option Job × Store :=
  match minRunAt (s.jobs.filter (eligible queue now s.lockedIds)) with
  | none => (none, s)
  | some j => (some j, { s with locks := (w, j.id) :: s.locks })

/-- Modelled from the spec: `Complete(lockedTransaction, job)`
(section 4.1) — deletes the Job row and commits, releasing the claim's
row lock. -/
def complete (s : Store) (w : Nat) (j : Job) : Store :=
  { s with
    jobs := s.jobs.filter (fun k => !(k.id == j.id))
    locks := s.locks.filter (fun p => !(p.1 == w && p.2 == j.id)) }

/-- Modelled from the spec: the row update applied by `Fail`
(section 4.1) — `ErrorCount += 1`, `LastError = error`,
`RunAt = nextRunAt`; every other field is kept. -/
def failJob (j : Job) (e : String) (nextRunAt : Nat) : Job :=
  { j with errorCount := j.errorCount + 1, lastError := e, runAt := nextRunAt }

/-- Modelled from the spec: `Fail(lockedTransaction, job, error,
nextRunAt)` (section 4.1) — updates the claimed row (`ErrorCount += 1`,
`LastError = error`, `RunAt = nextRunAt`) and commits, releasing the
claim's row lock; the row remains in the store. -/
def fail (s : Store) (w : Nat) (j : Job) (e : String) (nextRunAt : Nat) : Store :=
  { s with
    jobs := s.jobs.map (fun k => if k.id == j.id then failJob k e nextRunAt else k)
    locks := s.locks.filter (fun p => !(p.1 == w && p.2 == j.id)) }

/-- Modelled from the spec: `Release(lockedTransaction)` (section 4.1)
— rolls the claim transaction back without modifying the row; only the
row lock is given up. -/
def release (s : Store) (w : Nat) (j : Job) : Store :=
  { s with locks := s.locks.filter (fun p => !(p.1 == w && p.2 == j.id)) }

/-- Modelled from the spec: a worker process dying mid-claim
(section 4.1, crash safety) — the database aborts the open transaction,
so every row lock held by that worker is released with no row change. -/
def crash (s : Store) (w : Nat) : Store :=
  { s with locks := s.locks.filter (fun p => !(p.1 == w)) }

/-- Modelled from the spec: the default backoff strategy (section 4.2
step 4) — a convex polynomial of the error count, in seconds. -/
def defaultBackoff (errorCount : Nat) : Nat :=
  errorCount ^ 4 + 3

/-- The rescheduled eligibility time computed on failure:
`nextRunAt = now + backoff(ErrorCount)`. -/
def nextRunAt (now errorCount : Nat) : Nat :=
  now + defaultBackoff errorCount

/-- Outcome of invoking a job handler: success, or a descriptive
failure message. -/
inductive HandlerResult where
  | ok : HandlerResult
  | err : String → HandlerResult
  deriving Repr, DecidableEq

/-- Modelled from the spec: the `WorkMap` handler registry (section 3)
— a read-only mapping from job `Type` name to the handler logic, which
receives the job's `Args` payload. -/
def WorkMap : Type := List (String × (List Nat → HandlerResult))

/-- Registry lookup by job `Type`. -/
def lookupHandler (wm : WorkMap) (ty : String) : Option (List Nat → HandlerResult) :=
  match wm with
  | [] => none
  | (k, h) :: rest => if k == ty then some h else lookupHandler rest ty

/-- Modelled from the spec: resolution of a claimed job (section 4.2
steps 3-4) — `Release` when the `Type` is unregistered, `Complete` on
handler success, `Fail` with `nextRunAt = now + backoff(ErrorCount)` on
handler error. -/
def resolve (wm : WorkMap) (s1 : Store) (w : Nat) (now : Nat) (j : Job) : Store :=
  match lookupHandler wm j.type with
  | none => release s1 w j
  | some h =>
    match h j.args with
    | .ok => complete s1 w j
    | .err msg => fail s1 w j msg (nextRunAt now j.errorCount)

/-- Modelled from the spec: one iteration of the Worker loop
(section 4.2) — claim the next job; if none, do nothing this iteration;
otherwise resolve the claim.  The second component is the error the
iteration surfaces to the Worker Pool (a handler failure is absorbed
and never surfaced). -/
def workOne (wm : WorkMap) (s : Store) (w : Nat) (queue : String) (now : Nat) :
    Store × Option String :=
  match claimNext s w queue now with
  | (none, s1) => (s1, none)
  | (some j, s1) => (resolve wm s1 w now j, none)

/-- Modelled from the spec: the Worker loop (section 4.2) — cancellation
is checked only between iterations, so an iteration that claims a job
always resolves it (`Complete`, `Fail` or `Release`) before the check;
a signaled cancellation prevents a new claim from being initiated.
`fuel` bounds the number of iterations, and the clock advances by one
poll interval per iteration. -/
def workerLoop (wm : WorkMap) (cancelled : Nat → Bool) (w : Nat) (queue : String) :
    Nat → Store → Nat → Store
  | 0, s, _ => s
  | fuel + 1, s, now =>
    if cancelled now then s
    else workerLoop wm cancelled w queue fuel (workOne wm s w queue now).1 (now + 1)

/-- Modelled from the spec: the transitions of the shared store under
concurrent producers and workers (sections 4.1, 5) — any interleaving
of inserts, claims, resolutions (`Complete`, `Fail`, `Release`) and
worker crashes (transaction abort). -/
inductive Step : Store → Store → Prop where
  | enqueue (s : Store) (q ty : String) (args : List Nat) (runAt now : Nat) :
      Step s (enqueue s q ty args runAt now)
  | claim (s : Store) (w : Nat) (q : String) (now : Nat) :
      Step s (claimNext s w q now).2
  | complete (s : Store) (w : Nat) (j : Job) : Step s (complete s w j)
  | fail (s : Store) (w : Nat) (j : Job) (e : String) (t : Nat) :
      Step s (fail s w j e t)
  | release (s : Store) (w : Nat) (j : Job) : Step s (release s w j)
  | crash (s : Store) (w : Nat) : Step s (crash s w)

/-- The stores reachable from the empty store under any interleaving of
transitions. -/
inductive Reachable : Store → Prop where
  | init : Reachable Store.init
  | step {s s1 : Store} : Reachable s → Step s s1 → Reachable s1

theorem minRunAt_eq_none {l : List Job} : minRunAt l = none ↔ l = [] := by
  cases l with
  | nil => simp [minRunAt]
  | cons a l =>
    simp only [minRunAt]
    cases hm : minRunAt l with
    | none => simp
    | some k =>
      constructor
      · intro h
        by_cases hle : a.runAt ≤ k.runAt <;> simp [hle] at h
      · intro h
        exact absurd h (List.cons_ne_nil a l)

theorem minRunAt_mem {l : List Job} {j : Job} (h : minRunAt l = some j) : j ∈ l := by
  induction l generalizing j with
  | nil => simp [minRunAt] at h
  | cons a l ih =>
    simp only [minRunAt] at h
    cases hm : minRunAt l with
    | none =>
      rw [hm] at h
      simp only [Option.some.injEq] at h
      simp [h]
    | some k =>
      rw [hm] at h
      by_cases hle : a.runAt ≤ k.runAt
      · simp only [if_pos hle, Option.some.injEq] at h
        simp [h]
      · simp only [if_neg hle, Option.some.injEq] at h
        exact List.mem_cons_of_mem a (h ▸ ih hm)

theorem minRunAt_le {l : List Job} {j : Job} (h : minRunAt l = some j) :
    ∀ k ∈ l, j.runAt ≤ k.runAt := by
  induction l generalizing j with
  | nil => simp [minRunAt] at h
  | cons a l ih =>
    simp only [minRunAt] at h
    cases hm : minRunAt l with
    | none =>
      rw [hm] at h
      simp only [Option.some.injEq] at h
      rw [minRunAt_eq_none] at hm
      subst hm h
      intro k hk
      simp only [List.mem_singleton] at hk
      exact hk ▸ le_refl _
    | some m =>
      rw [hm] at h
      by_cases hle : a.runAt ≤ m.runAt
      · simp only [if_pos hle, Option.some.injEq] at h
        subst h
        intro k hk
        rcases List.mem_cons.mp hk with rfl | hk2
        · exact le_refl _
        · exact le_trans hle (ih hm k hk2)
      · simp only [if_neg hle, Option.some.injEq] at h
        subst h
        intro k hk
        rcases List.mem_cons.mp hk with rfl | hk2
        · exact le_of_not_le hle
        · exact ih hm k hk2

theorem claimNext_none {s : Store} {w : Nat} {q : String} {now : Nat}
    (h : (claimNext s w q now).1 = none) :
    (claimNext s w q now).2 = s ∧ ∀ j ∈ s.jobs, eligible q now s.lockedIds j = false := by
  unfold claimNext at h ⊢
  cases hm : minRunAt (s.jobs.filter (eligible q now s.lockedIds)) with
  | none =>
    rw [minRunAt_eq_none] at hm
    refine ⟨by simp, ?_⟩
    intro j hj
    by_contra hne
    have : j ∈ s.jobs.filter (eligible q now s.lockedIds) :=
      List.mem_filter.mpr ⟨hj, by simpa using hne⟩
    rw [hm] at this
    exact absurd this (List.not_mem_nil j)
  | some j => rw [hm] at h; simp at h

theorem claimNext_some {s : Store} {w : Nat} {q : String} {now : Nat} {j : Job}
    (h : (claimNext s w q now).1 = some j) :
    j ∈ s.jobs ∧ eligible q now s.lockedIds j = true ∧
      (∀ k ∈ s.jobs, eligible q now s.lockedIds k = true → j.runAt ≤ k.runAt) ∧
      (claimNext s w q now).2.jobs = s.jobs ∧
      (claimNext s w q now).2.locks = (w, j.id) :: s.locks := by
  unfold claimNext at h ⊢
  cases hm : minRunAt (s.jobs.filter (eligible q now s.lockedIds)) with
  | none => rw [hm] at h; simp at h
  | some m =>
    rw [hm] at h
    simp only [Option.some.injEq] at h
    subst h
    have hmem := minRunAt_mem hm
    have hf := List.mem_filter.mp hmem
    refine ⟨hf.1, hf.2, ?_, by simp, by simp⟩
    intro k hk he
    exact minRunAt_le hm k (List.mem_filter.mpr ⟨hk, he⟩)

/-- Claim C2: `ClaimNext(queue)` selects exactly one row that is in the
store, matches the queue, has `RunAt <= now` and is not locked by an
in-flight transaction, minimal among eligible rows in ascending `RunAt`
order, leaving the job table unchanged and recording the claimed row
lock (the transaction stays open); when no eligible unlocked row
exists it returns none and leaves the store untouched. -/
theorem claimNext_spec (s : Store) (w : Nat) (q : String) (now : Nat) :
    ((claimNext s w q now).1 = none →
      (claimNext s w q now).2 = s ∧ ∀ j ∈ s.jobs, eligible q now s.lockedIds j = false)
    ∧ (∀ j, (claimNext s w q now).1 = some j →
      j ∈ s.jobs ∧ eligible q now s.lockedIds j = true ∧
      (∀ k ∈ s.jobs, eligible q now s.lockedIds k = true → j.runAt ≤ k.runAt) ∧
      (claimNext s w q now).2.jobs = s.jobs ∧
      (claimNext s w q now).2.locks = (w, j.id) :: s.locks) :=
  ⟨fun h => claimNext_none h, fun _ h => claimNext_some h⟩

/-- The mutual-exclusion invariant: no job id appears in two claim
records at once. -/
def MutexInv (s : Store) : Prop := s.lockedIds.Nodup

theorem step_preserves_mutexInv {s s1 : Store} (hinv : MutexInv s) (h : Step s s1) :
    MutexInv s1 := by
  cases h with
  | enqueue q ty args runAt now => exact hinv
  | claim w q now =>
    cases hm : minRunAt (s.jobs.filter (eligible q now s.lockedIds)) with
    | none =>
      have heq : (claimNext s w q now).2 = s := by unfold claimNext; rw [hm]
      rw [heq]; exact hinv
    | some j =>
      have hlocks : (claimNext s w q now).2.locks = (w, j.id) :: s.locks := by
        unfold claimNext; rw [hm]
      have hmem := minRunAt_mem hm
      have hf := (List.mem_filter.mp hmem).2
      have hnotin : j.id ∉ s.lockedIds := by
        simp only [eligible, Bool.and_eq_true, Bool.not_eq_true'] at hf
        simpa using hf.2
      simp only [MutexInv, Store.lockedIds] at hinv ⊢
      rw [hlocks, List.map_cons]
      exact List.nodup_cons.mpr ⟨hnotin, hinv⟩
  | complete w j =>
    exact List.Nodup.sublist ((List.filter_sublist s.locks).map Prod.snd) hinv
  | fail w j e t =>
    exact List.Nodup.sublist ((List.filter_sublist s.locks).map Prod.snd) hinv
  | release w j =>
    exact List.Nodup.sublist ((List.filter_sublist s.locks).map Prod.snd) hinv
  | crash w =>
    exact List.Nodup.sublist ((List.filter_sublist s.locks).map Prod.snd) hinv

theorem reachable_mutexInv {s : Store} (h : Reachable s) : MutexInv s := by
  induction h with
  | init => exact List.nodup_nil
  | step _ hstep ih => exact step_preserves_mutexInv ih hstep

/-- Claim C1: at any instant, at most one Worker holds an active claim
(an open transaction with a row lock) on a given Job row — in every
store reachable under any interleaving of concurrent producer and
worker transitions (also across processes), two claim records on the
same job id belong to the same worker; this is enforced by the
skip-locked claiming read alone, with no application-level
coordination. -/
theorem at_most_one_claim {s : Store} (h : Reachable s) (w1 w2 jid : Nat)
    (h1 : (w1, jid) ∈ s.locks) (h2 : (w2, jid) ∈ s.locks) : w1 = w2 := by
  have hinv : (s.locks.map Prod.snd).Nodup := reachable_mutexInv h
  have heq : (w1, jid) = (w2, jid) :=
    List.inj_on_of_nodup_map hinv h1 h2 rfl
  exact congrArg Prod.fst heq

/-- The C1 theorem instantiated on a concrete reachable history: one
job is enqueued into the empty store and then claimed by worker 5;
both claim records on job id 0 name worker 5. -/
theorem at_most_one_claim_witness : (5 : Nat) = 5 := by
  have h0 : Reachable (enqueue Store.init "q" "T" [1] 0 0) :=
    Reachable.step Reachable.init (Step.enqueue Store.init "q" "T" [1] 0 0)
  have h1 : Reachable (claimNext (enqueue Store.init "q" "T" [1] 0 0) 5 "q" 0).2 :=
    Reachable.step h0 (Step.claim (enqueue Store.init "q" "T" [1] 0 0) 5 "q" 0)
  exact at_most_one_claim h1 5 5 0 (by decide) (by decide)

/-- Claim C4: `Complete` deletes the Job row and commits — immediately
after it returns, no row with the completed job's id is in the store,
and every surviving row is an unchanged row of the old store with a
different id. -/
theorem complete_spec (s : Store) (w : Nat) (j : Job) :
    findJob (complete s w j) j.id = none ∧
    ∀ k ∈ (complete s w j).jobs, k ∈ s.jobs ∧ k.id ≠ j.id := by
  constructor
  · apply List.find?_eq_none.mpr
    intro k hk
    have := (List.mem_filter.mp hk).2
    simpa using this
  · intro k hk
    have h2 := List.mem_filter.mp hk
    exact ⟨h2.1, by simpa using h2.2⟩

theorem find?_update_of_nodup (e : String) (t : Nat) :
    ∀ {l : List Job} {j : Job}, j ∈ l → (l.map Job.id).Nodup →
      (l.map (fun k => if k.id == j.id then failJob k e t else k)).find?
        (fun k => k.id == j.id) = some (failJob j e t) := by
  intro l
  induction l with
  | nil => intro j h _; simp at h
  | cons a l ih =>
    intro j hmem hnd
    simp only [List.map_cons, List.nodup_cons] at hnd
    rcases List.mem_cons.mp hmem with rfl | hmem2
    · rw [List.map_cons, if_pos (by simp)]
      exact List.find?_cons_of_pos _ (by simp [failJob])
    · have hane : (a.id == j.id) = false := by
        simp only [beq_eq_false_iff_ne, ne_eq]
        intro hc
        exact hnd.1 (hc ▸ List.mem_map_of_mem Job.id hmem2)
      rw [List.map_cons, if_neg (by simp [hane])]
      rw [List.find?_cons_of_neg _ (by simp [hane])]
      exact ih hmem2 hnd.2

theorem findJob_fail {s : Store} {j : Job} (hmem : j ∈ s.jobs)
    (hnd : (s.jobs.map Job.id).Nodup) (w : Nat) (e : String) (t : Nat) :
    findJob (fail s w j e t) j.id = some (failJob j e t) :=
  find?_update_of_nodup e t hmem hnd

/-- Claim C3: `Fail` updates the claimed row so that `ErrorCount`
increases by exactly 1, `LastError` equals the given error and `RunAt`
equals the given `nextRunAt`; the row remains in the store (the lookup
still finds it) and becomes eligible for claiming again at any instant
past `nextRunAt` once its lock is gone. -/
theorem fail_spec (s : Store) (w : Nat) (j : Job) (e : String) (t : Nat)
    (hmem : j ∈ s.jobs) (hnd : (s.jobs.map Job.id).Nodup) :
    findJob (fail s w j e t) j.id = some (failJob j e t) ∧
    (failJob j e t).errorCount = j.errorCount + 1 ∧
    (failJob j e t).lastError = e ∧
    (failJob j e t).runAt = t ∧
    (∀ now ids, t ≤ now → (failJob j e t).id ∉ ids →
      eligible j.queue now ids (failJob j e t) = true) := by
  refine ⟨findJob_fail hmem hnd w e t, rfl, rfl, rfl, ?_⟩
  intro now ids hle hnot
  have hnot2 : j.id ∉ ids := by simpa [failJob] using hnot
  simp [eligible, failJob, hle, hnot2]

/-- A concrete one-row job table used to instantiate the hypotheses of
the claim theorems. -/
def jobA : Job :=
  { id := 0, queue := "q", type := "T", args := [1, 2], runAt := 0,
    errorCount := 0, lastError := "", createdAt := 0 }

/-- A concrete store holding exactly `jobA`, with no open claims. -/
def storeA : Store := { jobs := [jobA], locks := [], nextId := 1 }

/-- The C3 theorem instantiated on the concrete one-row store. -/
theorem fail_spec_witness :
    findJob (fail storeA 0 jobA "boom" 7) jobA.id = some (failJob jobA "boom" 7) ∧
    (failJob jobA "boom" 7).errorCount = jobA.errorCount + 1 ∧
    (failJob jobA "boom" 7).lastError = "boom" ∧
    (failJob jobA "boom" 7).runAt = 7 ∧
    (∀ now ids, 7 ≤ now → (failJob jobA "boom" 7).id ∉ ids →
      eligible jobA.queue now ids (failJob jobA "boom" 7) = true) :=
  fail_spec storeA 0 jobA "boom" 7 (by simp [storeA]) (by simp [storeA])

/-- Claim C5: the default backoff strategy is monotone — a larger error
count never yields a smaller backoff — and a failure strictly advances
`RunAt`: rescheduling to `now + backoff(ErrorCount)` from any instant
`now` at which the job was claimable (`RunAt <= now`) moves `RunAt`
strictly forward, never earlier. -/
theorem backoff_monotone (n1 n2 : Nat) (h : n1 < n2) (j : Job) (e : String) (now : Nat)
    (hle : j.runAt ≤ now) :
    defaultBackoff n1 ≤ defaultBackoff n2 ∧
    j.runAt < (failJob j e (nextRunAt now j.errorCount)).runAt := by
  constructor
  · have hp := Nat.pow_le_pow_left (le_of_lt h) 4
    simpa [defaultBackoff] using Nat.add_le_add_right hp 3
  · have h3 : 3 ≤ defaultBackoff j.errorCount := by
      simp [defaultBackoff]
    simp only [failJob, nextRunAt]
    omega

/-- The C5 theorem instantiated at error counts 0 < 1 on the concrete
job, claimed at the instant its `RunAt` elapses. -/
theorem backoff_monotone_witness :
    defaultBackoff 0 ≤ defaultBackoff 1 ∧
    jobA.runAt < (failJob jobA "e" (nextRunAt 0 jobA.errorCount)).runAt :=
  backoff_monotone 0 1 (by decide) jobA "e" 0 (by decide)

/-- Claim C6: a Job is never claimed before its `RunAt` elapses — every
job returned by `ClaimNext` satisfies `RunAt <= now` — and once
`RunAt <= now` holds for an unlocked job of the right queue, `ClaimNext`
succeeds in claiming a job. -/
theorem delay_honored (s : Store) (w : Nat) (q : String) (now : Nat) :
    (∀ j, (claimNext s w q now).1 = some j → j.runAt ≤ now) ∧
    (∀ j ∈ s.jobs, j.queue = q → j.runAt ≤ now →
      s.lockedIds.contains j.id = false → ((claimNext s w q now).1).isSome = true) := by
  constructor
  · intro j h
    have he := (claimNext_some h).2.1
    simp only [eligible, Bool.and_eq_true, decide_eq_true_eq, Bool.not_eq_true'] at he
    exact he.1.2
  · intro j hj hq hr hl
    have hl2 : j.id ∉ s.lockedIds := by simpa using hl
    have he : eligible q now s.lockedIds j = true := by
      simp [eligible, hq, hr, hl2]
    have hmem : j ∈ s.jobs.filter (eligible q now s.lockedIds) :=
      List.mem_filter.mpr ⟨hj, he⟩
    unfold claimNext
    cases hm : minRunAt (s.jobs.filter (eligible q now s.lockedIds)) with
    | none =>
      rw [minRunAt_eq_none] at hm
      rw [hm] at hmem
      exact absurd hmem (List.not_mem_nil j)
    | some m => simp

theorem claimNext_snd_of_eq {s s1 : Store} {w : Nat} {q : String} {now : Nat} {j : Job}
    (hclaim : claimNext s w q now = (some j, s1)) :
    s1.jobs = s.jobs ∧ s1.locks = (w, j.id) :: s.locks ∧ j ∈ s.jobs := by
  have h1 : (claimNext s w q now).1 = some j := by rw [hclaim]
  have hs := claimNext_some h1
  have h2 : (claimNext s w q now).2 = s1 := by rw [hclaim]
  exact ⟨h2 ▸ hs.2.2.2.1, h2 ▸ hs.2.2.2.2, hs.1⟩

/-- Claim C7: when the claimed Job's `Type` has no entry in the
WorkMap, the Worker releases it — the iteration rolls back without
modifying any row: the whole job table (hence the job's `ErrorCount`,
`RunAt` and every other field) is exactly as before the claim, every
lookup is unchanged, and the episode surfaces no error and records no
failure. -/
theorem release_unchanged (wm : WorkMap) (s : Store) (w : Nat) (q : String) (now : Nat)
    (j : Job) (s1 : Store) (hclaim : claimNext s w q now = (some j, s1))
    (hwm : lookupHandler wm j.type = none) :
    (workOne wm s w q now).1.jobs = s.jobs ∧
    (∀ i, findJob (workOne wm s w q now).1 i = findJob s i) ∧
    (workOne wm s w q now).2 = none := by
  have hs1 := (claimNext_snd_of_eq hclaim).1
  unfold workOne
  rw [hclaim]
  simp only [resolve, hwm]
  refine ⟨by simpa [release] using hs1, ?_, by trivial⟩
  intro i
  simp [findJob, release, hs1]

/-- The C7 theorem instantiated on the concrete one-row store with an
empty registry: worker 0 claims `jobA` at time 0, finds no handler for
its type, and releases it with the table untouched. -/
theorem release_unchanged_witness :
    (workOne [] storeA 0 "q" 0).1.jobs = storeA.jobs ∧
    (∀ i, findJob (workOne [] storeA 0 "q" 0).1 i = findJob storeA i) ∧
    (workOne [] storeA 0 "q" 0).2 = none :=
  release_unchanged [] storeA 0 "q" 0 jobA
    { storeA with locks := [(0, jobA.id)] } (by decide) rfl

/-- Claim C8: an error returned by a job handler is fully absorbed in
the Worker's failure path — no iteration of the Worker loop ever
surfaces an error to the Worker Pool, and a handler failure is recorded
into the claimed row (`LastError` set to the handler's message,
`ErrorCount` incremented) with `RunAt` rescheduled to
`now + backoff(ErrorCount)`. -/
theorem handler_error_absorbed (wm : WorkMap) (s : Store) (w : Nat) (q : String)
    (now : Nat) (j : Job) (s1 : Store) (h : List Nat → HandlerResult) (msg : String)
    (hclaim : claimNext s w q now = (some j, s1))
    (hh : lookupHandler wm j.type = some h)
    (he : h j.args = HandlerResult.err msg)
    (hnd : (s.jobs.map Job.id).Nodup) :
    (∀ s0 : Store, (workOne wm s0 w q now).2 = none) ∧
    findJob (workOne wm s w q now).1 j.id =
      some (failJob j msg (nextRunAt now j.errorCount)) := by
  constructor
  · intro s0
    simp only [workOne]
    split <;> rfl
  · have hsnd := claimNext_snd_of_eq hclaim
    have hmem1 : j ∈ s1.jobs := hsnd.1 ▸ hsnd.2.2
    have hnd1 : (s1.jobs.map Job.id).Nodup := by rw [hsnd.1]; exact hnd
    unfold workOne
    rw [hclaim]
    simp only [resolve, hh, he]
    exact findJob_fail hmem1 hnd1 w msg (nextRunAt now j.errorCount)

/-- A handler registry holding one always-failing handler for type
`T`, used to instantiate the C8 theorem. -/
def wmErr : WorkMap := [("T", fun _ => HandlerResult.err "boom")]

/-- The C8 theorem instantiated on the concrete one-row store with the
always-failing registry: worker 0 claims `jobA` at time 0, the handler
fails, and the failure is recorded without surfacing any error. -/
theorem handler_error_absorbed_witness :
    (∀ s0 : Store, (workOne wmErr s0 0 "q" 0).2 = none) ∧
    findJob (workOne wmErr storeA 0 "q" 0).1 jobA.id =
      some (failJob jobA "boom" (nextRunAt 0 jobA.errorCount)) :=
  handler_error_absorbed wmErr storeA 0 "q" 0 jobA
    { storeA with locks := [(0, jobA.id)] } (fun _ => HandlerResult.err "boom") "boom"
    (by decide) rfl rfl (by simp [storeA])

theorem resolve_locks (wm : WorkMap) (s1 : Store) (w : Nat) (now : Nat) (j : Job) :
    (resolve wm s1 w now j).locks =
      s1.locks.filter (fun p => !(p.1 == w && p.2 == j.id)) := by
  unfold resolve
  cases lookupHandler wm j.type with
  | none => rfl
  | some h =>
    show (match h j.args with
      | HandlerResult.ok => complete s1 w j
      | HandlerResult.err msg =>
        fail s1 w j msg (nextRunAt now j.errorCount)).locks =
      s1.locks.filter (fun p => !(p.1 == w && p.2 == j.id))
    cases h j.args with
    | ok => rfl
    | err m => rfl

theorem not_mem_filter_self {l : List (Nat × Nat)} {w jid : Nat}
    (hw : ∀ x, (w, x) ∉ l) (x : Nat) :
    (w, x) ∉ ((w, jid) :: l).filter (fun p => !(p.1 == w && p.2 == jid)) := by
  intro hmem
  have h2 := List.mem_filter.mp hmem
  rcases List.mem_cons.mp h2.1 with heq | hmem2
  · have hx : x = jid := congrArg Prod.snd heq
    subst hx
    simp at h2
  · exact hw x hmem2

theorem workOne_no_self_lock (wm : WorkMap) {s : Store} {w : Nat} (q : String)
    (now : Nat) (hw : ∀ x, (w, x) ∉ s.locks) :
    ∀ x, (w, x) ∉ (workOne wm s w q now).1.locks := by
  intro x
  unfold workOne
  cases hm : minRunAt (s.jobs.filter (eligible q now s.lockedIds)) with
  | none =>
    have hc : claimNext s w q now = (none, s) := by unfold claimNext; rw [hm]
    rw [hc]
    exact hw x
  | some j =>
    have hc : claimNext s w q now =
        (some j, { s with locks := (w, j.id) :: s.locks }) := by
      unfold claimNext; rw [hm]
    rw [hc]
    show (w, x) ∉ (resolve wm { s with locks := (w, j.id) :: s.locks } w now j).locks
    rw [resolve_locks]
    exact not_mem_filter_self hw x

theorem workerLoop_no_self_lock (wm : WorkMap) (cancelled : Nat → Bool) {w : Nat}
    (q : String) (fuel : Nat) :
    ∀ (s : Store) (now : Nat), (∀ x, (w, x) ∉ s.locks) →
      ∀ x, (w, x) ∉ (workerLoop wm cancelled w q fuel s now).locks := by
  induction fuel with
  | zero => intro s now hw x; exact hw x
  | succ f ih =>
    intro s now hw x
    unfold workerLoop
    by_cases hc : cancelled now = true
    · rw [if_pos hc]; exact hw x
    · rw [if_neg hc]
      exact ih (workOne wm s w q now).1 (now + 1) (workOne_no_self_lock wm q now hw) x

/-- Claim C9: cancellation is cooperative and never interrupts a job in
progress — it is checked only between loop iterations, so a signaled
cancellation makes the loop exit before initiating any new claim (the
store is untouched), and every iteration that does claim a job resolves
it (`Complete`, `Fail` or `Release`) within that same iteration; hence
after the loop exits, the worker holds no open claim — no job is left
claimed-but-unresolved by the shut-down worker. -/
theorem cancellation_graceful (wm : WorkMap) (cancelled : Nat → Bool) (w : Nat)
    (q : String) (fuel : Nat) (s : Store) (now : Nat)
    (hw : ∀ x, (w, x) ∉ s.locks) :
    (cancelled now = true → ∀ f, workerLoop wm cancelled w q (f + 1) s now = s) ∧
    (∀ x, (w, x) ∉ (workerLoop wm cancelled w q fuel s now).locks) := by
  constructor
  · intro hc f
    unfold workerLoop
    rw [if_pos hc]
  · exact workerLoop_no_self_lock wm cancelled q fuel s now hw

/-- The C9 theorem instantiated with the always-signaled cancellation
on the concrete one-row store: the loop exits immediately and worker 3
holds no claim afterwards. -/
theorem cancellation_graceful_witness :
    ((fun _ : Nat => true) 0 = true →
      ∀ f, workerLoop wmErr (fun _ => true) 3 "q" (f + 1) storeA 0 = storeA) ∧
    (∀ x, (3, x) ∉ (workerLoop wmErr (fun _ => true) 3 "q" 2 storeA 0).locks) :=
  cancellation_graceful wmErr (fun _ => true) 3 "q" 2 storeA 0
    (fun x hx => List.not_mem_nil (3, x) hx)

/-- Claim C10: the `Args` payload makes an unaltered round trip from
`Enqueue` to the handler dispatch — the inserted row stores the
supplied payload verbatim, `ClaimNext` leaves the job table untouched
and only hands out a row of that table (whose stored `Args` the
dispatch passes to the handler as-is), and the failure reschedule
preserves `Args`; the core never alters the payload between insert and
dispatch. -/
theorem args_roundtrip (s : Store) (q ty : String) (args : List Nat)
    (runAt now : Nat) (w : Nat) (q2 : String) (now2 : Nat) (j0 : Job)
    (e : String) (t : Nat) :
    (findJob (enqueue s q ty args runAt now) s.nextId).map Job.args = some args ∧
    (claimNext s w q2 now2).2.jobs = s.jobs ∧
    (∀ j, (claimNext s w q2 now2).1 = some j → j ∈ s.jobs) ∧
    (failJob j0 e t).args = j0.args := by
  refine ⟨?_, ?_, ?_, rfl⟩
  · simp [findJob, enqueue]
  · cases hm : minRunAt (s.jobs.filter (eligible q2 now2 s.lockedIds)) with
    | none =>
      have hc : claimNext s w q2 now2 = (none, s) := by unfold claimNext; rw [hm]
      rw [hc]
    | some m =>
      have hc : claimNext s w q2 now2 =
          (some m, { s with locks := (w, m.id) :: s.locks }) := by
        unfold claimNext; rw [hm]
      rw [hc]
  · intro j h
    exact (claimNext_some h).1
